import Mathlib

/-!
Verification of the `ataf` archive engine (shallow embedding of the Rust
sources in `src/`).  Bytes are modelled as `Nat` values below 256 where it
matters, byte streams as `List Nat`, machine integers as `Nat` with explicit
`% 2 ^ w` wherever the Rust code can overflow or truncate, and fallible
reads as `Except`.  `std::io` error kinds that the code inspects are
modelled by `ErrKind`.  Rust panics and infinite loops are modelled by
`Option` (`none` = the call never returns normally).
-/

namespace Ataf

/-- Error kinds of `std::io::Error` that the source distinguishes:
`read_exact` hitting end of input yields `unexpectedEof`; invalid UTF-8 and
oversized varints yield `invalidData` (`ErrorKind::InvalidData`); the bad
entry-type byte uses `std::io::Error::other`, modelled by `otherErr`. -/
inductive ErrKind where
  | unexpectedEof : ErrKind
  | invalidData : ErrKind
  | otherErr : ErrKind
deriving Repr, DecidableEq

/-- Model of `Read::read_exact` into an `n`-byte buffer: consume exactly `n`
bytes of the input or fail with `ErrorKind::UnexpectedEof`. -/
def readExact (n : Nat) (input : List Nat) : Except ErrKind (List Nat × List Nat) :=
  if n ≤ input.length then .ok (input.take n, input.drop n)
  else .error .unexpectedEof

/-- Little-endian byte encoding of width `n` bytes (`u16::to_le_bytes`,
`u32::to_le_bytes` are `toLeBytes 2` and `toLeBytes 4`): byte `i` holds
`v / 256 ^ i % 256`. -/
def toLeBytes : Nat → Nat → List Nat
  | 0, _ => []
  | n + 1, v => v % 256 :: toLeBytes n (v / 256)

/-- Little-endian recomposition (`u16::from_le_bytes`, `u32::from_le_bytes`). -/
def fromLeBytes : List Nat → Nat
  | [] => 0
  | b :: rest => b + 256 * fromLeBytes rest

theorem toLeBytes_length (n v : Nat) : (toLeBytes n v).length = n := by
  induction n generalizing v with
  | zero => rfl
  | succ k ih => simp [toLeBytes, ih]

theorem fromLeBytes_toLeBytes (n v : Nat) (h : v < 256 ^ n) :
    fromLeBytes (toLeBytes n v) = v := by
  induction n generalizing v with
  | zero => simp at h; simp [toLeBytes, fromLeBytes, h]
  | succ k ih =>
    have hdiv : v / 256 < 256 ^ k := by
      rw [Nat.div_lt_iff_lt_mul (by omega)]
      calc v < 256 ^ (k + 1) := h
        _ = 256 ^ k * 256 := by rw [Nat.pow_succ]
    simp only [toLeBytes, fromLeBytes, ih _ hdiv]
    omega

theorem toLeBytes_lt (n v : Nat) : ∀ b ∈ toLeBytes n v, b < 256 := by
  induction n generalizing v with
  | zero => simp [toLeBytes]
  | succ k ih =>
    intro b hb
    simp only [toLeBytes, List.mem_cons] at hb
    rcases hb with h | h
    · omega
    · exact ih _ _ h

/-- Reading the exact serialized width back off the front of a stream. -/
theorem readExact_append (xs rest : List Nat) :
    readExact xs.length (xs ++ rest) = .ok (xs, rest) := by
  simp [readExact, List.take_left, List.drop_left]

/-- Bits already accumulated below the shift point do not interfere with the
next 7-bit group: `|||` of disjoint ranges is addition. -/
theorem lor_shift_add (acc g k : Nat) (h : acc < 2 ^ k) :
    acc ||| g <<< k = g * 2 ^ k + acc := by
  rw [Nat.shiftLeft_eq, Nat.lor_comm, Nat.mul_comm g (2 ^ k)]
  exact (Nat.mul_add_lt_is_or h g).symm

/-- Loop body of varint serialization, structurally recursive on a fuel
bound so that the kernel can evaluate it; the residual value shrinks by a
factor 128 per iteration, so any fuel ≥ the iteration count gives the loop
semantics (`serializeVarintLoop_congr`), and `fuel = v` always suffices. -/
def serializeVarintLoop : Nat → Nat → List Nat
  | 0, v => [v % 128]
  | fuel + 1, v =>
    if v / 128 = 0 then [v % 128]
    else (v % 128 + 128) :: serializeVarintLoop fuel (v / 128)

/-- Serialization of `VariableSizedU32` / `VariableSizedU64` (`src/spec.rs`):
emit the low 7 bits, set the continuation bit (`| 0x80`) unless the shifted
residual is zero.  The loop is identical for both widths. -/
def serializeVarint (v : Nat) : List Nat := serializeVarintLoop v v

theorem serializeVarintLoop_congr (f1 : Nat) :
    ∀ f2 v, v ≤ f1 → v ≤ f2 → serializeVarintLoop f1 v = serializeVarintLoop f2 v := by
  induction f1 with
  | zero =>
    intro f2 v h1 _
    have hv : v = 0 := by omega
    subst hv
    cases f2 with
    | zero => rfl
    | succ k => simp [serializeVarintLoop]
  | succ k ih =>
    intro f2 v h1 h2
    by_cases h : v / 128 = 0
    · cases f2 with
      | zero =>
        have hv : v = 0 := by omega
        subst hv
        simp [serializeVarintLoop]
      | succ m => simp [serializeVarintLoop, h]
    · have hv128 : 128 ≤ v := by
        by_contra hcon
        exact h (Nat.div_eq_of_lt (by omega))
      cases f2 with
      | zero => omega
      | succ m =>
        simp only [serializeVarintLoop, if_neg h]
        have hd : v / 128 < v := Nat.div_lt_self (by omega) (by omega)
        rw [ih m (v / 128) (by omega) (by omega)]

/-- The defining one-step equation of the serialization loop. -/
theorem serializeVarint_eq (v : Nat) :
    serializeVarint v =
      if v / 128 = 0 then [v % 128]
      else (v % 128 + 128) :: serializeVarint (v / 128) := by
  unfold serializeVarint
  cases v with
  | zero => simp [serializeVarintLoop]
  | succ n =>
    simp only [serializeVarintLoop]
    by_cases h : (n + 1) / 128 = 0
    · simp [h]
    · have hv128 : 128 ≤ n + 1 := by
        by_contra hcon
        exact h (Nat.div_eq_of_lt (by omega))
      have hd : (n + 1) / 128 < n + 1 := Nat.div_lt_self (by omega) (by omega)
      simp only [if_neg h]
      rw [serializeVarintLoop_congr n ((n + 1) / 128) ((n + 1) / 128) (by omega) (by omega)]

/-- Deserialization loop of `VariableSizedU32` / `VariableSizedU64`
(`src/spec.rs`), parameterized by the width (32 or 64).  `acc` and `shift`
are the running `value` and `shift` variables; the accumulation masks to the
machine width exactly as the Rust `<<` on `u32`/`u64` does.  A byte with the
continuation bit set when `shift + 7` would reach the width fails with
`InvalidData` ("too large"), and end of input mid-varint is `unexpectedEof`. -/
def deserializeVarint (width : Nat) : List Nat → Nat → Nat → Except ErrKind (Nat × List Nat)
  | [], _, _ => .error .unexpectedEof
  | b :: rest, acc, shift =>
    let acc' := (acc ||| (b % 128) <<< shift) % 2 ^ width
    if b < 128 then .ok (acc', rest)
    else if shift + 7 ≥ width then .error .invalidData
    else deserializeVarint width rest acc' (shift + 7)

theorem serializeVarint_zero : serializeVarint 0 = [0] := by
  simp [serializeVarint, serializeVarintLoop]

theorem serializeVarint_byte_lt (v : Nat) : ∀ b ∈ serializeVarint v, b < 256 := by
  induction v using Nat.strong_induction_on with
  | _ v ih =>
    intro b hb
    rw [serializeVarint_eq] at hb
    by_cases h : v / 128 = 0
    · simp [h] at hb; omega
    · simp only [h, if_false, List.mem_cons] at hb
      rcases hb with h1 | h1
      · have := Nat.mod_lt v (y := 128) (by omega); omega
      · exact ih (v / 128) (Nat.div_lt_self (by omega) (by omega)) b h1

/-- Generalized decode/encode roundtrip, tracking the running accumulator. -/
theorem deserializeVarint_serializeVarint (width : Nat) (v : Nat) :
    ∀ acc shift rest, shift < width → acc < 2 ^ shift → v < 2 ^ (width - shift) →
    deserializeVarint width (serializeVarint v ++ rest) acc shift =
      .ok (acc + v * 2 ^ shift, rest) := by
  induction v using Nat.strong_induction_on with
  | _ v ih =>
    intro acc shift rest hshift hacc hv
    rw [serializeVarint_eq]
    by_cases h : v / 128 = 0
    · have hv128 : v < 128 := by
        by_contra hcon
        have h1 : 1 ≤ v / 128 := (Nat.one_le_div_iff (by omega)).mpr (by omega)
        omega
      rw [if_pos h]
      simp only [List.cons_append, List.nil_append]
      rw [deserializeVarint]
      simp only [Nat.mod_eq_of_lt hv128, if_pos hv128]
      have heq : acc ||| v <<< shift = v * 2 ^ shift + acc := lor_shift_add acc v shift hacc
      have hsum : width - shift + shift = width := Nat.sub_add_cancel (Nat.le_of_lt hshift)
      have hbound : v * 2 ^ shift + acc < 2 ^ width := by
        have h1 : v * 2 ^ shift ≤ (2 ^ (width - shift) - 1) * 2 ^ shift :=
          Nat.mul_le_mul_right _ (by omega)
        have h2 : (2 ^ (width - shift) - 1) * 2 ^ shift = 2 ^ width - 2 ^ shift := by
          rw [Nat.sub_mul, ← Nat.pow_add, hsum, Nat.one_mul]
        have h3 : 2 ^ shift ≤ 2 ^ width := Nat.pow_le_pow_right (by omega) (by omega)
        omega
      rw [heq, Nat.mod_eq_of_lt hbound, Nat.add_comm]
    · have hv128 : 128 ≤ v := by
        by_contra hcon
        exact h (Nat.div_eq_of_lt (by omega))
      rw [if_neg h]
      simp only [List.cons_append]
      rw [deserializeVarint]
      have hb1 : ¬ (v % 128 + 128 < 128) := by omega
      have hmod : (v % 128 + 128) % 128 = v % 128 := by omega
      simp only [hmod, if_neg hb1]
      -- the continuation path: `shift + 7 < width` because `v` still needs ≥ 8 bits
      have hwide : ¬ (shift + 7 ≥ width) := by
        intro hcon
        have h128 : (128 : Nat) = 2 ^ 7 := by norm_num
        have hle : 2 ^ (width - shift) ≤ 2 ^ 7 := Nat.pow_le_pow_right (by omega) (by omega)
        omega
      rw [if_neg hwide]
      have heq : acc ||| (v % 128) <<< shift = v % 128 * 2 ^ shift + acc :=
        lor_shift_add acc (v % 128) shift hacc
      have haccbound : v % 128 * 2 ^ shift + acc < 2 ^ (shift + 7) := by
        have h1 : v % 128 ≤ 127 := by omega
        have h2 : v % 128 * 2 ^ shift ≤ 127 * 2 ^ shift := Nat.mul_le_mul_right _ h1
        have h3 : 2 ^ (shift + 7) = 2 ^ shift * 128 := by rw [Nat.pow_add]
        omega
      have haccw : v % 128 * 2 ^ shift + acc < 2 ^ width := by
        have hle : 2 ^ (shift + 7) ≤ 2 ^ width := Nat.pow_le_pow_right (by omega) (by omega)
        omega
      rw [heq, Nat.mod_eq_of_lt haccw]
      have hdivlt : v / 128 < 2 ^ (width - (shift + 7)) := by
        have h3 : 2 ^ (width - shift) = 2 ^ (width - (shift + 7)) * 128 := by
          rw [show (128 : Nat) = 2 ^ 7 by norm_num, ← Nat.pow_add]
          congr 1
          omega
        rw [Nat.div_lt_iff_lt_mul (by omega : (0:Nat) < 128)]
        rw [h3] at hv
        exact hv
      have hrec := ih (v / 128) (Nat.div_lt_self (by omega) (by omega))
        (v % 128 * 2 ^ shift + acc) (shift + 7) rest (by omega) haccbound hdivlt
      rw [hrec]
      have harith : v % 128 * 2 ^ shift + acc + v / 128 * 2 ^ (shift + 7) =
          acc + v * 2 ^ shift := by
        have hp : 2 ^ (shift + 7) = 2 ^ shift * 128 := by rw [Nat.pow_add]
        rw [hp]
        have hr : v / 128 * (2 ^ shift * 128) = 128 * (v / 128) * 2 ^ shift := by ring
        rw [hr]
        have h2 : 128 * (v / 128) * 2 ^ shift + v % 128 * 2 ^ shift = v * 2 ^ shift := by
          rw [← Nat.add_mul]
          congr 1
          omega
        omega
      rw [harith]

/-- Minimality of the varint encoding: `n` bytes hold exactly the values
below `128 ^ n`, and the encoding of `v` is the least such `n`. -/
theorem serializeVarint_minimal (v : Nat) :
    v < 128 ^ (serializeVarint v).length ∧
      ((serializeVarint v).length = 1 ∨ 128 ^ ((serializeVarint v).length - 1) ≤ v) := by
  induction v using Nat.strong_induction_on with
  | _ v ih =>
    rw [serializeVarint_eq]
    by_cases h : v / 128 = 0
    · have hv128 : v < 128 := by
        by_contra hcon
        have h1 : 1 ≤ v / 128 := (Nat.one_le_div_iff (by omega)).mpr (by omega)
        omega
      rw [if_pos h]
      constructor
      · simpa using hv128
      · left; simp
    · have hv128 : 128 ≤ v := by
        by_contra hcon
        exact h (Nat.div_eq_of_lt (by omega))
      obtain ⟨ihlt, ihge⟩ := ih (v / 128) (Nat.div_lt_self (by omega) (by omega))
      rw [if_neg h]
      simp only [List.length_cons]
      set m := (serializeVarint (v / 128)).length with hm
      have hmpos : 1 ≤ m := by
        rw [hm, serializeVarint_eq]
        by_cases h2 : v / 128 / 128 = 0 <;> simp [h2]
      constructor
      · have : v / 128 < 128 ^ m := ihlt
        have h1 : v < 128 * (v / 128) + 128 := by
          have := Nat.div_add_mod v 128
          have := Nat.mod_lt v (y := 128) (by omega)
          omega
        have h2 : 128 * (v / 128) + 128 ≤ 128 * 128 ^ m := by
          have : v / 128 + 1 ≤ 128 ^ m := this
          calc 128 * (v / 128) + 128 = 128 * (v / 128 + 1) := by ring
            _ ≤ 128 * 128 ^ m := Nat.mul_le_mul_left _ this
        calc v < 128 * 128 ^ m := by omega
          _ = 128 ^ (m + 1) := by rw [Nat.pow_succ, Nat.mul_comm]
      · right
        simp only [Nat.add_sub_cancel]
        rcases ihge with h1 | h1
        · -- `m = 1`: goal is `128 ^ 1 ≤ v`
          rw [h1]; simpa using hv128
        · have h2 : 128 ^ (m - 1) ≤ v / 128 := h1
          have h3 : 128 * 128 ^ (m - 1) ≤ 128 * (v / 128) := Nat.mul_le_mul_left _ h2
          have h4 : 128 * (v / 128) ≤ v := Nat.mul_div_le v 128
          have h5 : 128 * 128 ^ (m - 1) = 128 ^ m := by
            rw [← Nat.pow_succ']
            congr 1
            omega
          omega

/-- Decidable equality for `Except` results so that concrete runs of the
codecs can be checked by `decide`. -/
instance instDecEqExcept {e a : Type} [DecidableEq e] [DecidableEq a] :
    DecidableEq (Except e a)
  | .ok x, .ok y =>
    if h : x = y then .isTrue (by rw [h])
    else .isFalse (by intro hc; cases hc; exact h rfl)
  | .error x, .error y =>
    if h : x = y then .isTrue (by rw [h])
    else .isFalse (by intro hc; cases hc; exact h rfl)
  | .ok _, .error _ => .isFalse (by intro hc; cases hc)
  | .error _, .ok _ => .isFalse (by intro hc; cases hc)

/-- Round-trip of the varint codec from a fresh decoder state. -/
theorem varint_roundtrip (width v : Nat) (rest : List Nat)
    (hw : 0 < width) (hv : v < 2 ^ width) :
    deserializeVarint width (serializeVarint v ++ rest) 0 0 = .ok (v, rest) := by
  have h := deserializeVarint_serializeVarint width v 0 0 rest hw (by simp) (by simpa using hv)
  simpa using h

/-- Validity predicate of `String::from_utf8` (`std` UTF-8 rules: shortest
forms only, no surrogates, code points ≤ U+10FFFF), used by the header
parsers on the compression-name and path fields. -/
def utf8Valid : List Nat → Bool
  | [] => true
  | b :: rest =>
    if b < 0x80 then utf8Valid rest
    else if b < 0xC2 then false
    else if b ≤ 0xDF then
      match rest with
      | c1 :: r => decide (0x80 ≤ c1) && decide (c1 ≤ 0xBF) && utf8Valid r
      | [] => false
    else if b ≤ 0xEF then
      match rest with
      | c1 :: c2 :: r =>
        (if b = 0xE0 then decide (0xA0 ≤ c1) && decide (c1 ≤ 0xBF)
         else if b = 0xED then decide (0x80 ≤ c1) && decide (c1 ≤ 0x9F)
         else decide (0x80 ≤ c1) && decide (c1 ≤ 0xBF)) &&
        (decide (0x80 ≤ c2) && decide (c2 ≤ 0xBF)) && utf8Valid r
      | _ => false
    else if b ≤ 0xF4 then
      match rest with
      | c1 :: c2 :: c3 :: r =>
        (if b = 0xF0 then decide (0x90 ≤ c1) && decide (c1 ≤ 0xBF)
         else if b = 0xF4 then decide (0x80 ≤ c1) && decide (c1 ≤ 0x8F)
         else decide (0x80 ≤ c1) && decide (c1 ≤ 0xBF)) &&
        (decide (0x80 ≤ c2) && decide (c2 ≤ 0xBF)) &&
        (decide (0x80 ≤ c3) && decide (c3 ≤ 0xBF)) && utf8Valid r
      | _ => false
    else false

/-- Archive prelude (`ArchiveHeader` in `src/spec.rs`); `compression` holds
the UTF-8 bytes of the codec name. -/
structure ArchiveHeader where
  version : Nat
  compression : List Nat
  compression_chunk_size : Nat
deriving Repr, DecidableEq

/-- `impl Serialize for ArchiveHeader`: `u32` LE version, `u16` LE name
length (the `as u16` cast truncates, which `toLeBytes 2` reproduces), the
name bytes, then the `u32` LE chunk size. -/
def serializeArchiveHeader (h : ArchiveHeader) : List Nat :=
  toLeBytes 4 h.version ++ toLeBytes 2 h.compression.length ++ h.compression ++
    toLeBytes 4 h.compression_chunk_size

/-- `impl Deserialize for ArchiveHeader`: reads the four fields in order;
short reads are `unexpectedEof`, a non-UTF-8 name is `InvalidData`.  No
validation of `version` or `compression_chunk_size` is performed. -/
def deserializeArchiveHeader (input : List Nat) : Except ErrKind (ArchiveHeader × List Nat) :=
  match readExact 4 input with
  | .error e => .error e
  | .ok (vb, r1) =>
    match readExact 2 r1 with
    | .error e => .error e
    | .ok (lb, r2) =>
      match readExact (fromLeBytes lb) r2 with
      | .error e => .error e
      | .ok (name, r3) =>
        if utf8Valid name then
          match readExact 4 r3 with
          | .error e => .error e
          | .ok (cb, r4) =>
            .ok ({ version := fromLeBytes vb, compression := name,
                   compression_chunk_size := fromLeBytes cb }, r4)
        else .error .invalidData

/-- Entry kind byte (`ArchiveEntryHeaderType` in `src/spec.rs`). -/
inductive ArchiveEntryHeaderType where
  | file : ArchiveEntryHeaderType
  | directory : ArchiveEntryHeaderType
  | symlinkFile : ArchiveEntryHeaderType
  | symlinkDirectory : ArchiveEntryHeaderType
deriving Repr, DecidableEq

def serializeEntryType : ArchiveEntryHeaderType → List Nat
  | .file => [0]
  | .directory => [1]
  | .symlinkFile => [2]
  | .symlinkDirectory => [3]

/-- `impl Deserialize for ArchiveEntryHeaderType`: one byte; `0..=3` select
the variant, anything else is `std::io::Error::other` (`otherErr`). -/
def deserializeEntryType : List Nat → Except ErrKind (ArchiveEntryHeaderType × List Nat)
  | [] => .error .unexpectedEof
  | b :: r =>
    match b with
    | 0 => .ok (.file, r)
    | 1 => .ok (.directory, r)
    | 2 => .ok (.symlinkFile, r)
    | 3 => .ok (.symlinkDirectory, r)
    | _ => .error .otherErr

/-- Per-entry header (`ArchiveEntryHeader` in `src/spec.rs`); `path` holds
the UTF-8 bytes of the path string. -/
structure ArchiveEntryHeader where
  type : ArchiveEntryHeaderType
  path : List Nat
  mode : Nat
  uid : Nat
  gid : Nat
  mtime : Nat
  size : Nat
deriving Repr, DecidableEq

/-- `impl Serialize for ArchiveEntryHeader`: type byte, varint64 path
length, path bytes, `u32` LE mode, varint32 uid and gid, varint64 mtime,
varint64 size. -/
def serializeEntryHeader (h : ArchiveEntryHeader) : List Nat :=
  serializeEntryType h.type ++ serializeVarint h.path.length ++ h.path ++
    toLeBytes 4 h.mode ++ serializeVarint h.uid ++ serializeVarint h.gid ++
    serializeVarint h.mtime ++ serializeVarint h.size

/-- `impl Deserialize for ArchiveEntryHeader`: parses the fields of
`serializeEntryHeader` in order; short reads are `unexpectedEof`, bad UTF-8
in the path is `InvalidData`. -/
def deserializeEntryHeader (input : List Nat) : Except ErrKind (ArchiveEntryHeader × List Nat) :=
  match deserializeEntryType input with
  | .error e => .error e
  | .ok (t, r1) =>
    match deserializeVarint 64 r1 0 0 with
    | .error e => .error e
    | .ok (pathLength, r2) =>
      match readExact pathLength r2 with
      | .error e => .error e
      | .ok (path, r3) =>
        if utf8Valid path then
          match readExact 4 r3 with
          | .error e => .error e
          | .ok (mb, r4) =>
            match deserializeVarint 32 r4 0 0 with
            | .error e => .error e
            | .ok (uid, r5) =>
              match deserializeVarint 32 r5 0 0 with
              | .error e => .error e
              | .ok (gid, r6) =>
                match deserializeVarint 64 r6 0 0 with
                | .error e => .error e
                | .ok (mtime, r7) =>
                  match deserializeVarint 64 r7 0 0 with
                  | .error e => .error e
                  | .ok (size, r8) =>
                    .ok ({ type := t, path := path, mode := fromLeBytes mb,
                           uid := uid, gid := gid, mtime := mtime, size := size }, r8)
        else .error .invalidData

theorem readExact_append_of_length {n : Nat} (xs rest : List Nat) (h : xs.length = n) :
    readExact n (xs ++ rest) = .ok (xs, rest) := by
  subst h
  exact readExact_append xs rest

theorem readExact_toLeBytes (n v : Nat) (rest : List Nat) :
    readExact n (toLeBytes n v ++ rest) = .ok (toLeBytes n v, rest) :=
  readExact_append_of_length _ _ (toLeBytes_length n v)

/-- Well-formedness of an `ArchiveHeader` value as it exists in the Rust
program: machine-width fields in range and a valid UTF-8 name (guaranteed
by the `String` type). -/
def WFArchiveHeader (h : ArchiveHeader) : Prop :=
  h.version < 2 ^ 32 ∧ h.compression.length < 2 ^ 16 ∧
    h.compression_chunk_size < 2 ^ 32 ∧ utf8Valid h.compression = true

/-- Archive-header serialize/deserialize roundtrip.  Note that it holds for
every `version` value: the parser performs no version check. -/
theorem deserializeArchiveHeader_serializeArchiveHeader (h : ArchiveHeader) (rest : List Nat)
    (wf : WFArchiveHeader h) :
    deserializeArchiveHeader (serializeArchiveHeader h ++ rest) = .ok (h, rest) := by
  obtain ⟨h1, h2, h3, h4⟩ := wf
  have hl2 : h.compression.length < 256 ^ 2 := by
    have hx := h2
    norm_num at hx ⊢
    omega
  have hv4 : h.version < 256 ^ 4 := by
    have hx := h1
    norm_num at hx ⊢
    omega
  have hc4 : h.compression_chunk_size < 256 ^ 4 := by
    have hx := h3
    norm_num at hx ⊢
    omega
  have e1 : ∀ r : List Nat, readExact h.compression.length (h.compression ++ r) =
      .ok (h.compression, r) := fun r => readExact_append_of_length _ _ rfl
  simp only [serializeArchiveHeader, deserializeArchiveHeader, List.append_assoc,
    readExact_toLeBytes, fromLeBytes_toLeBytes 2 _ hl2, e1, h4,
    fromLeBytes_toLeBytes 4 _ hv4, fromLeBytes_toLeBytes 4 _ hc4, if_true]

theorem deserializeEntryType_serializeEntryType (t : ArchiveEntryHeaderType)
    (rest : List Nat) :
    deserializeEntryType (serializeEntryType t ++ rest) = .ok (t, rest) := by
  cases t <;> rfl

/-- Well-formedness of an `ArchiveEntryHeader` value as it exists in the
Rust program: machine-width fields in range, and a valid UTF-8 path. -/
def WFEntryHeader (h : ArchiveEntryHeader) : Prop :=
  utf8Valid h.path = true ∧ h.path.length < 2 ^ 64 ∧ h.mode < 2 ^ 32 ∧
    h.uid < 2 ^ 32 ∧ h.gid < 2 ^ 32 ∧ h.mtime < 2 ^ 64 ∧ h.size < 2 ^ 64

/-- Entry-header serialize/deserialize roundtrip. -/
theorem deserializeEntryHeader_serializeEntryHeader (h : ArchiveEntryHeader) (rest : List Nat)
    (wf : WFEntryHeader h) :
    deserializeEntryHeader (serializeEntryHeader h ++ rest) = .ok (h, rest) := by
  obtain ⟨h1, h2, h3, h4, h5, h6, h7⟩ := wf
  have hm4 : h.mode < 256 ^ 4 := by
    have hx := h3
    norm_num at hx ⊢
    omega
  have e1 : ∀ r : List Nat, deserializeVarint 64 (serializeVarint h.path.length ++ r) 0 0 =
      .ok (h.path.length, r) := fun r => varint_roundtrip 64 _ r (by omega) h2
  have e2 : ∀ r : List Nat, readExact h.path.length (h.path ++ r) = .ok (h.path, r) :=
    fun r => readExact_append_of_length _ _ rfl
  have e3 : ∀ r : List Nat, deserializeVarint 32 (serializeVarint h.uid ++ r) 0 0 =
      .ok (h.uid, r) := fun r => varint_roundtrip 32 _ r (by omega) h4
  have e4 : ∀ r : List Nat, deserializeVarint 32 (serializeVarint h.gid ++ r) 0 0 =
      .ok (h.gid, r) := fun r => varint_roundtrip 32 _ r (by omega) h5
  have e5 : ∀ r : List Nat, deserializeVarint 64 (serializeVarint h.mtime ++ r) 0 0 =
      .ok (h.mtime, r) := fun r => varint_roundtrip 64 _ r (by omega) h6
  have e6 : ∀ r : List Nat, deserializeVarint 64 (serializeVarint h.size ++ r) 0 0 =
      .ok (h.size, r) := fun r => varint_roundtrip 64 _ r (by omega) h7
  simp only [serializeEntryHeader, deserializeEntryHeader, List.append_assoc,
    deserializeEntryType_serializeEntryType, e1, e2, h1, if_true, readExact_toLeBytes,
    e3, e4, e5, e6, fromLeBytes_toLeBytes 4 _ hm4]

/-- `u32_to_u24_bytes` (`src/archive/write.rs`): big-endian 3-byte chunk
length; each `as u8` cast keeps the low 8 bits, so a length ≥ 2²⁴ is
silently truncated exactly as in Rust. -/
def u32_to_u24_bytes (v : Nat) : List Nat :=
  [(v >>> 16) % 256, (v >>> 8) % 256, v % 256]

/-- `u24_bytes_to_u32` (`src/archive/read.rs`).  The function is only ever
applied to the 3-byte result of a `read_exact`; other shapes are
unreachable and map to 0. -/
def u24_bytes_to_u32 : List Nat → Nat
  | [b0, b1, b2] => (b0 <<< 16) ||| (b1 <<< 8) ||| b2
  | _ => 0

/-- One framed chunk as written by `ChunkWriter::write_chunk`: the 3-byte
big-endian length, then the chunk bytes. -/
def frameBytes (chunk : List Nat) : List Nat :=
  u32_to_u24_bytes chunk.length ++ chunk

theorem u24_roundtrip (v : Nat) (h : v < 2 ^ 24) :
    u24_bytes_to_u32 (u32_to_u24_bytes v) = v := by
  simp only [u32_to_u24_bytes, u24_bytes_to_u32, Nat.shiftRight_eq_div_pow,
    Nat.shiftLeft_eq]
  have ha : v / 2 ^ 16 % 256 = v / 2 ^ 16 := Nat.mod_eq_of_lt (by omega)
  rw [ha]
  have h1 : v / 2 ^ 16 * 2 ^ 16 ||| v / 2 ^ 8 % 256 * 2 ^ 8 =
      v / 2 ^ 16 * 2 ^ 16 + v / 2 ^ 8 % 256 * 2 ^ 8 := by
    rw [Nat.mul_comm (v / 2 ^ 16) (2 ^ 16)]
    exact (Nat.mul_add_lt_is_or (by omega) _).symm
  have h2 : v / 2 ^ 16 * 2 ^ 16 + v / 2 ^ 8 % 256 * 2 ^ 8 =
      2 ^ 8 * (v / 2 ^ 16 * 2 ^ 8 + v / 2 ^ 8 % 256) := by ring
  have h3 : 2 ^ 8 * (v / 2 ^ 16 * 2 ^ 8 + v / 2 ^ 8 % 256) ||| v % 256 =
      2 ^ 8 * (v / 2 ^ 16 * 2 ^ 8 + v / 2 ^ 8 % 256) + v % 256 :=
    (Nat.mul_add_lt_is_or (by omega) _).symm
  rw [h1, h2, h3]
  omega

/-- The chunk-count expression `*size / chunk_size + if *size % chunk_size >
0 { 1 } else { 0 }` shared by `write_entry` and `next_entry`; `u64`
division by zero panics in Rust, modelled by `none`. -/
def chunkCount (size cs : Nat) : Option Nat :=
  if cs = 0 then none
  else some (size / cs + if size % cs > 0 then 1 else 0)

/-- Total version of the chunk count, used under a `cs ≠ 0` hypothesis. -/
def numChunks (size cs : Nat) : Nat :=
  size / cs + if size % cs > 0 then 1 else 0

/-- The logical chunking of a payload: `n` successive `cs`-byte slices of
the input (the final slice possibly shorter). -/
def takeChunks (cs : Nat) : Nat → List Nat → List (List Nat)
  | 0, _ => []
  | n + 1, input => input.take cs :: takeChunks cs n (input.drop cs)

/-- The `write_entry` payload loop (`src/archive/write.rs`) specialized to
`NoCompressor` (`src/compression.rs`): while `chunk_writer.chunk_count >
0`, call `Compressor::compress`, which copies up to `chunk_size` bytes from
the in-memory input and emits exactly one framed chunk.  The first
component is the emitted wire bytes, the second the trace of
`remaining_chunks` arguments passed to `compress`: the code passes the
original `chunk_count as usize` (`total`) on every iteration, not the
decremented `chunk_writer.chunk_count`. -/
def noneWriteLoop (cs total : Nat) : Nat → List Nat → List Nat × List Nat
  | 0, _ => ([], [])
  | n + 1, input =>
    let out := noneWriteLoop cs total n (input.drop cs)
    (frameBytes (input.take cs) ++ out.1, total :: out.2)

/-- `ArchiveWriter::write_entry` with the `"none"` compressor: serialize
the entry header, compute the chunk count (`none` models the
division-by-zero panic when `compression_chunk_size = 0`), then run the
payload loop.  Returns the wire bytes and the `remaining_chunks` trace. -/
def writeEntryNone (cs : Nat) (h : ArchiveEntryHeader) (input : List Nat) :
    Option (List Nat × List Nat) :=
  match chunkCount h.size cs with
  | none => none
  | some n =>
    some (serializeEntryHeader h ++ (noneWriteLoop cs n n input).1,
      (noneWriteLoop cs n n input).2)

/-- UTF-8 bytes of the codec name `"none"`. -/
def noneName : List Nat := [110, 111, 110, 101]

/-- `ArchiveWriter::new` (which writes the archive header with `version =
1` and the compressor's name) followed by one `write_entry`, "none" codec. -/
def writeSingleEntryArchiveNone (cs : Nat) (h : ArchiveEntryHeader) (input : List Nat) :
    Option (List Nat) :=
  match writeEntryNone cs h input with
  | none => none
  | some (wire, _) =>
    some (serializeArchiveHeader
      { version := 1, compression := noneName, compression_chunk_size := cs } ++ wire)

/-- State of one `ArchiveEntry` (`src/archive/read.rs`): the underlying
reader's remaining bytes, the staging buffer of decompressed bytes, and the
byte/chunk counters. -/
structure EntryState where
  reader : List Nat
  compression_chunk_buffer : List Nat
  read_bytes : Nat
  size : Nat
  compression_chunk_size : Nat
  chunks : Nat
  read_chunks : Nat
deriving Repr, DecidableEq

/-- One framed chunk off the wire: `read_exact` of the 3-byte length, then
`read_exact` of that many bytes (`<ArchiveEntry as Read>::read`). -/
def readFramedChunk (wire : List Nat) : Except ErrKind (List Nat × List Nat) :=
  match readExact 3 wire with
  | .error e => .error e
  | .ok (szb, r1) =>
    match readExact (u24_bytes_to_u32 szb) r1 with
    | .error e => .error e
    | .ok (chunk, r2) => .ok (chunk, r2)

/-- One call to `<ArchiveEntry as Read>::read` with a destination buffer of
`bufLen` bytes and the `NoDecompressor` (`decompress_inputs() = 1`,
pass-through `decompress` that appends its input to the staging buffer).
Returns the bytes copied into the caller's buffer together with the updated
state.  The tail call `self.read(buf)` after a decompression round is the
recursion; `fuel` bounds it, and `none` models the infinite loop the code
enters when the framed chunks are exhausted while `read_bytes < size`. -/
def entryReadNone (bufLen : Nat) :
    Nat → EntryState → Option (Except ErrKind (List Nat × EntryState))
  | 0, _ => none
  | fuel + 1, st =>
    if st.size = 0 ∨ st.size ≤ st.read_bytes then some (.ok ([], st))
    else if st.compression_chunk_buffer ≠ [] then
      let t := min bufLen st.compression_chunk_buffer.length
      some (.ok (st.compression_chunk_buffer.take t,
        { st with compression_chunk_buffer := st.compression_chunk_buffer.drop t,
                  read_bytes := st.read_bytes + t }))
    else if st.read_chunks < st.chunks then
      match readFramedChunk st.reader with
      | .error e => some (.error e)
      | .ok (chunk, rest) =>
        entryReadNone bufLen fuel
          { st with reader := rest,
                    compression_chunk_buffer := st.compression_chunk_buffer ++ chunk,
                    read_chunks := st.read_chunks + 1 }
    else
      entryReadNone bufLen fuel st

/-- Repeated `read` until a call returns 0 bytes, concatenating the bytes
returned to the caller (the semantics of `std::io::copy` and of a caller
that fully consumes the entry).  The inner fuel `st.chunks - st.read_chunks
+ 1` is an upper bound on the recursion depth of a single `read` call on
well-formed input; on other input `none` models non-termination. -/
def consumeEntry (bufLen : Nat) :
    Nat → EntryState → Option (Except ErrKind (List Nat × EntryState))
  | 0, _ => none
  | fuel + 1, st =>
    match entryReadNone bufLen (st.chunks - st.read_chunks + 1) st with
    | none => none
    | some (.error e) => some (.error e)
    | some (.ok (bytes, st')) =>
      if bytes = [] then some (.ok ([], st'))
      else
        match consumeEntry bufLen fuel st' with
        | none => none
        | some (.error e) => some (.error e)
        | some (.ok (out, st2)) => some (.ok (bytes ++ out, st2))

/-- `<ArchiveEntry as Drop>::drop`: when the payload was not fully
consumed, `std::io::copy(self, &mut std::io::sink())` drains the remaining
payload through `read` (8192-byte copy buffer) and the result is
`.unwrap()`ed, so an I/O error during the discard (or the exhausted-wire
loop) is a panic, modelled by `none`. -/
def dropEntry (st : EntryState) : Option EntryState :=
  if st.read_bytes < st.size then
    match consumeEntry 8192 (st.size - st.read_bytes + 1) st with
    | some (.ok (_, st')) => some st'
    | _ => none
  else some st

/-- Result of `ArchiveEntriesReader::next_entry`. -/
inductive NextEntryResult where
  | endOfEntries : NextEntryResult
  | fatal : ErrKind → NextEntryResult
  | panicked : NextEntryResult
  | entry : ArchiveEntryHeader → EntryState → NextEntryResult
deriving Repr, DecidableEq

/-- `ArchiveEntriesReader::next_entry` (`src/archive/read.rs`): deserialize
an entry header; any error of kind `UnexpectedEof` during that parse —
whether at the very first type byte or mid-header — returns `None`
(`endOfEntries`); any other error is handed to the caller (`fatal`).  On
success the chunk count is computed from `header.size` and the cached
archive header's `compression_chunk_size` (`cs`), which in Rust panics when
`cs = 0` (`panicked`). -/
def nextEntry (cs : Nat) (input : List Nat) : NextEntryResult :=
  match deserializeEntryHeader input with
  | .error .unexpectedEof => .endOfEntries
  | .error e => .fatal e
  | .ok (h, rest) =>
    match chunkCount h.size cs with
    | none => .panicked
    | some n =>
      .entry h { reader := rest, compression_chunk_buffer := [], read_bytes := 0,
                 size := h.size, compression_chunk_size := cs, chunks := n,
                 read_chunks := 0 }

/-- The reader pipeline on a single-entry archive with the `"none"`
decompressor: parse the archive header, `next_entry` with the parsed
`compression_chunk_size`, then fully consume the entry's byte stream using
a `bufLen`-byte read buffer.  `none` collapses the error and panic cases,
which the roundtrip theorem rules out. -/
def readSingleEntryArchiveNone (bufLen : Nat) (wire : List Nat) :
    Option (ArchiveEntryHeader × List Nat) :=
  match deserializeArchiveHeader wire with
  | .error _ => none
  | .ok (ah, rest) =>
    match nextEntry ah.compression_chunk_size rest with
    | .entry h st =>
      match consumeEntry bufLen (st.size + 1) st with
      | some (.ok (bytes, _)) => some (h, bytes)
      | _ => none
    | _ => none

/-- Wire bytes of `n` framed chunks taken off the front of `input`. -/
def framesWire (cs n : Nat) (input : List Nat) : List Nat :=
  ((takeChunks cs n input).map frameBytes).flatten

theorem noneWriteLoop_fst (cs total : Nat) :
    ∀ n input, (noneWriteLoop cs total n input).1 = framesWire cs n input := by
  intro n
  induction n with
  | zero => intro input; rfl
  | succ k ih =>
    intro input
    simp only [noneWriteLoop, framesWire, takeChunks, List.map_cons, List.flatten_cons, ih]

theorem noneWriteLoop_trace (cs total : Nat) :
    ∀ n input, (noneWriteLoop cs total n input).2 = List.replicate n total := by
  intro n
  induction n with
  | zero => intro input; rfl
  | succ k ih =>
    intro input
    simp only [noneWriteLoop, ih, List.replicate]

theorem takeChunks_length (cs : Nat) :
    ∀ n input, (takeChunks cs n input).length = n := by
  intro n
  induction n with
  | zero => intro input; rfl
  | succ k ih => intro input; simp [takeChunks, ih]

/-- Ceiling property: all `numChunks` chunks cover the payload. -/
theorem numChunks_mul_ge (s cs : Nat) (hcs : 0 < cs) : s ≤ numChunks s cs * cs := by
  unfold numChunks
  have h1 := Nat.div_add_mod s cs
  have h2 := Nat.mod_lt s hcs
  by_cases h : s % cs > 0
  · rw [if_pos h, Nat.succ_mul, Nat.mul_comm]
    omega
  · rw [if_neg h, Nat.add_zero, Nat.mul_comm]
    omega

/-- A chunk index is strictly below the chunk count exactly when the chunk
starts strictly inside the payload. -/
theorem lt_numChunks_iff (s cs rc : Nat) (hcs : 0 < cs) :
    rc < numChunks s cs ↔ rc * cs < s := by
  constructor
  · intro h
    unfold numChunks at h
    have h1 := Nat.div_add_mod s cs
    have h2 := Nat.mod_lt s hcs
    by_cases hm : s % cs > 0
    · rw [if_pos hm] at h
      have h3 : rc ≤ s / cs := by omega
      have h4 : rc * cs ≤ s / cs * cs := Nat.mul_le_mul_right _ h3
      have h5 : s / cs * cs = cs * (s / cs) := Nat.mul_comm _ _
      omega
    · rw [if_neg hm] at h
      have h3 : rc + 1 ≤ s / cs := by omega
      have h4 : (rc + 1) * cs ≤ s / cs * cs := Nat.mul_le_mul_right _ h3
      rw [Nat.succ_mul] at h4
      have h5 : s / cs * cs = cs * (s / cs) := Nat.mul_comm _ _
      omega
  · intro h
    by_contra hcon
    have h1 : numChunks s cs ≤ rc := by omega
    have h2 : numChunks s cs * cs ≤ rc * cs := Nat.mul_le_mul_right _ h1
    have h3 := numChunks_mul_ge s cs hcs
    omega

/-- Framed-chunk roundtrip: a frame written by `write_chunk` for a chunk
shorter than 2²⁴ parses back to the same chunk. -/
theorem readFramedChunk_frame (chunk R : List Nat) (h : chunk.length < 2 ^ 24) :
    readFramedChunk (frameBytes chunk ++ R) = .ok (chunk, R) := by
  have h3 : (u32_to_u24_bytes chunk.length).length = 3 := rfl
  have e1 : readExact 3 (u32_to_u24_bytes chunk.length ++ (chunk ++ R)) =
      .ok (u32_to_u24_bytes chunk.length, chunk ++ R) :=
    readExact_append_of_length _ _ h3
  have e2 : readExact chunk.length (chunk ++ R) = .ok (chunk, R) :=
    readExact_append_of_length _ _ rfl
  simp only [readFramedChunk, frameBytes, List.append_assoc, e1, u24_roundtrip _ h, e2]

theorem framesWire_succ (cs m : Nat) (input : List Nat) :
    framesWire cs (m + 1) input =
      frameBytes (input.take cs) ++ framesWire cs m (input.drop cs) := by
  simp [framesWire, takeChunks]

theorem take_min_length (l : List Nat) (n : Nat) : l.take (min n l.length) = l.take n := by
  rw [List.take_eq_take]
  omega

/-- Invariant tying a live `ArchiveEntry` state to the logical payload `B`
it is positioned in and the wire suffix `R` that follows this entry's
framed chunks (for the `"none"` codec, where each framed chunk's bytes are
the logical chunk).  All states the reader pipeline reaches on an archive
produced by the writer satisfy it. -/
structure EntryInv (B R : List Nat) (st : EntryState) : Prop where
  cs_pos : 0 < st.compression_chunk_size
  cs_u24 : st.compression_chunk_size ≤ 16777215
  size_eq : st.size = B.length
  chunks_eq : st.chunks = numChunks B.length st.compression_chunk_size
  rc_le : st.read_chunks ≤ st.chunks
  count_eq : st.read_bytes + st.compression_chunk_buffer.length =
    min (st.read_chunks * st.compression_chunk_size) B.length
  buffer_eq : st.compression_chunk_buffer =
    (B.drop st.read_bytes).take st.compression_chunk_buffer.length
  wire_eq : st.reader =
    framesWire st.compression_chunk_size (st.chunks - st.read_chunks)
      (B.drop (st.read_chunks * st.compression_chunk_size)) ++ R

/-- At or past end of payload, the invariant forces an empty staging
buffer, all chunks consumed, and the wire positioned exactly at `R`. -/
theorem entryInv_final (B R : List Nat) (st : EntryState) (inv : EntryInv B R st)
    (hdone : st.size ≤ st.read_bytes) :
    st.compression_chunk_buffer = [] ∧ st.read_chunks = st.chunks ∧ st.reader = R := by
  obtain ⟨cs_pos, cs_u24, size_eq, chunks_eq, rc_le, count_eq, buffer_eq, wire_eq⟩ := inv
  have hrb : st.read_bytes = B.length ∧ st.compression_chunk_buffer.length = 0 := by
    have h1 : min (st.read_chunks * st.compression_chunk_size) B.length ≤ B.length :=
      Nat.min_le_right _ _
    omega
  have hbuf : st.compression_chunk_buffer = [] := List.eq_nil_of_length_eq_zero hrb.2
  have hmul : B.length ≤ st.read_chunks * st.compression_chunk_size := by omega
  have hrc : st.read_chunks = st.chunks := by
    by_cases hB : B.length = 0
    · have : numChunks B.length st.compression_chunk_size = 0 := by
        simp [numChunks, hB]
      omega
    · have h2 : ¬ (st.read_chunks < st.chunks) := by
        intro hcon
        rw [chunks_eq] at hcon
        have := (lt_numChunks_iff B.length st.compression_chunk_size st.read_chunks
          cs_pos).mp hcon
        omega
      omega
  refine ⟨hbuf, hrc, ?_⟩
  rw [wire_eq, hrc, Nat.sub_self]
  simp [framesWire, takeChunks]

/-- The drain branch of `read`: with a nonempty staging buffer, one call
copies `min bufLen |buffer|` bytes — a prefix of the remaining payload —
and preserves the invariant. -/
theorem entryReadNone_drain (B R : List Nat) (st : EntryState) (bufLen f : Nat)
    (inv : EntryInv B R st) (hbl : 0 < bufLen) (hlt : st.read_bytes < st.size)
    (hne : st.compression_chunk_buffer ≠ []) :
    ∃ t st2, 0 < t ∧ t ≤ B.length - st.read_bytes ∧
      entryReadNone bufLen (f + 1) st = some (.ok ((B.drop st.read_bytes).take t, st2)) ∧
      EntryInv B R st2 ∧ st2.read_bytes = st.read_bytes + t ∧ st2.size = st.size ∧
      st2.chunks = st.chunks ∧ st2.read_chunks = st.read_chunks ∧
      st2.compression_chunk_size = st.compression_chunk_size := by
  obtain ⟨cs_pos, cs_u24, size_eq, chunks_eq, rc_le, count_eq, buffer_eq, wire_eq⟩ := inv
  set t := min bufLen st.compression_chunk_buffer.length with ht
  have hlen : 0 < st.compression_chunk_buffer.length := List.length_pos.mpr hne
  have htpos : 0 < t := by omega
  have htle : t ≤ st.compression_chunk_buffer.length := by omega
  have hcount_le : st.read_bytes + st.compression_chunk_buffer.length ≤ B.length := by
    have := Nat.min_le_right (st.read_chunks * st.compression_chunk_size) B.length
    omega
  refine ⟨t, { st with compression_chunk_buffer := st.compression_chunk_buffer.drop t, read_bytes := st.read_bytes + t }, htpos, by omega, ?_, ?_, rfl, rfl, rfl, rfl, rfl⟩
  · simp only [entryReadNone]
    rw [if_neg (by omega : ¬ (st.size = 0 ∨ st.size ≤ st.read_bytes)), if_pos hne]
    have hbytes : st.compression_chunk_buffer.take t = (B.drop st.read_bytes).take t := by
      conv_lhs => rw [buffer_eq]
      rw [List.take_take]
      congr 1
      omega
    rw [← ht, hbytes]
  · constructor <;> simp only
    · exact cs_pos
    · exact cs_u24
    · exact size_eq
    · exact chunks_eq
    · exact rc_le
    · simp only [List.length_drop]
      omega
    · conv_lhs => rw [buffer_eq]
      rw [List.drop_take, List.drop_drop, List.length_drop]
    · exact wire_eq

/-- One full `read` call on a live entry mid-payload: with any fuel ≥ 2 it
delivers a nonempty prefix of the remaining payload (via at most one framed
chunk pull followed by a drain) and preserves the invariant. -/
theorem entryReadNone_step (B R : List Nat) (st : EntryState) (bufLen f : Nat)
    (inv : EntryInv B R st) (hbl : 0 < bufLen) (hlt : st.read_bytes < st.size) :
    ∃ t st2, 0 < t ∧ t ≤ B.length - st.read_bytes ∧
      entryReadNone bufLen (f + 2) st = some (.ok ((B.drop st.read_bytes).take t, st2)) ∧
      EntryInv B R st2 ∧ st2.read_bytes = st.read_bytes + t ∧ st2.size = st.size ∧
      st2.chunks = st.chunks ∧
      st2.compression_chunk_size = st.compression_chunk_size := by
  by_cases hbe : st.compression_chunk_buffer = []
  · -- staging buffer empty: pull one framed chunk, then drain from it
    obtain ⟨cs_pos, cs_u24, size_eq, chunks_eq, rc_le, count_eq, buffer_eq, wire_eq⟩ := inv
    set cs := st.compression_chunk_size with hcs
    set rc := st.read_chunks with hrcdef
    have hbuf0 : st.compression_chunk_buffer.length = 0 := by rw [hbe]; rfl
    have hrbmin : st.read_bytes = min (rc * cs) B.length := by omega
    have hltB : st.read_bytes < B.length := by omega
    have hmul_lt : rc * cs < B.length := by
      rcases Nat.lt_or_ge (rc * cs) B.length with h | h
      · exact h
      · exfalso
        have : min (rc * cs) B.length = B.length := by omega
        omega
    have hrb_eq : st.read_bytes = rc * cs := by omega
    have hrc : rc < st.chunks := by
      rw [chunks_eq]
      exact (lt_numChunks_iff B.length cs rc cs_pos).mpr hmul_lt
    set c : List Nat := (B.drop (rc * cs)).take cs with hcdef
    have hclen : c.length = min cs (B.length - rc * cs) := by
      rw [hcdef, List.length_take, List.length_drop]
    have hc24 : c.length < 2 ^ 24 := by
      have : c.length ≤ cs := by omega
      omega
    have hclen_pos : 0 < c.length := by omega
    set rest2 : List Nat := framesWire cs (st.chunks - rc - 1) ((B.drop (rc * cs)).drop cs) ++ R
      with hrest2
    have hwire : st.reader = frameBytes c ++ rest2 := by
      rw [wire_eq]
      have hm : st.chunks - rc = (st.chunks - rc - 1) + 1 := by omega
      rw [hm, framesWire_succ, List.append_assoc]
    have hread : readFramedChunk st.reader = .ok (c, rest2) := by
      rw [hwire]
      exact readFramedChunk_frame c rest2 hc24
    set st' : EntryState := { st with reader := rest2, compression_chunk_buffer := st.compression_chunk_buffer ++ c, read_chunks := rc + 1 } with hst'
    have hsm : (rc + 1) * cs = rc * cs + cs := Nat.succ_mul rc cs
    have hinv' : EntryInv B R st' := by
      constructor <;> simp only [hst', hbe, List.nil_append]
      · exact cs_pos
      · exact cs_u24
      · exact size_eq
      · exact chunks_eq
      · omega
      · rw [hclen, hsm]
        omega
      · rw [hrb_eq, hclen]
        have h1 : min cs (B.length - rc * cs) = min cs (B.drop (rc * cs)).length := by
          rw [List.length_drop]
        rw [h1, take_min_length]
      · rw [hrest2, List.drop_drop]
        have h1 : rc * cs + cs = (rc + 1) * cs := hsm.symm
        have h2 : st.chunks - rc - 1 = st.chunks - (rc + 1) := by omega
        rw [h1, h2]
    have hne' : st'.compression_chunk_buffer ≠ [] := by
      simp only [hst', hbe, List.nil_append]
      intro hcon
      rw [hcon] at hclen_pos
      simp at hclen_pos
    have hlt' : st'.read_bytes < st'.size := hlt
    obtain ⟨t, st2, ht, htle, heq, hinv2, hrb2, hsz2, hch2, hrc2, hcs2⟩ :=
      entryReadNone_drain B R st' bufLen f hinv' hbl hlt' hne'
    refine ⟨t, st2, ht, htle, ?_, hinv2, hrb2, hsz2, hch2, hcs2⟩
    have hunfold : entryReadNone bufLen (f + 2) st = entryReadNone bufLen (f + 1) st' := by
      show entryReadNone bufLen ((f + 1) + 1) st = _
      simp only [entryReadNone]
      rw [if_neg (by omega : ¬ (st.size = 0 ∨ st.size ≤ st.read_bytes)),
        if_neg (by simp [hbe] : ¬ st.compression_chunk_buffer ≠ []),
        if_pos (show st.read_chunks < st.chunks from hrc)]
      simp only [hread]
    rw [hunfold, heq]
  · -- nonempty staging buffer: drain directly
    obtain ⟨t, st2, ht, htle, heq, hinv2, hrb2, hsz2, hch2, hrc2, hcs2⟩ :=
      entryReadNone_drain B R st bufLen (f + 1) inv hbl hlt hbe
    exact ⟨t, st2, ht, htle, heq, hinv2, hrb2, hsz2, hch2, hcs2⟩

theorem entryReadNone_done (bufLen f : Nat) (st : EntryState)
    (hdone : st.size = 0 ∨ st.size ≤ st.read_bytes) :
    entryReadNone bufLen (f + 1) st = some (.ok ([], st)) := by
  simp only [entryReadNone]
  rw [if_pos hdone]

/-- With the staging buffer empty mid-payload, some framed chunks must
remain. -/
theorem entryInv_rc_lt (B R : List Nat) (st : EntryState) (inv : EntryInv B R st)
    (hlt : st.read_bytes < st.size) (hbe : st.compression_chunk_buffer = []) :
    st.read_chunks < st.chunks := by
  obtain ⟨cs_pos, _, size_eq, chunks_eq, _, count_eq, _, _⟩ := inv
  have hbuf0 : st.compression_chunk_buffer.length = 0 := by rw [hbe]; rfl
  have hmul_lt : st.read_chunks * st.compression_chunk_size < B.length := by
    rcases Nat.lt_or_ge (st.read_chunks * st.compression_chunk_size) B.length with h | h
    · exact h
    · exfalso
      have : min (st.read_chunks * st.compression_chunk_size) B.length = B.length := by omega
      omega
  rw [chunks_eq]
  exact (lt_numChunks_iff B.length st.compression_chunk_size st.read_chunks cs_pos).mpr hmul_lt

/-- A `read` call mid-payload with the inner fuel used by `consumeEntry`
always makes progress. -/
theorem entryReadNone_progress (B R : List Nat) (st : EntryState) (bufLen : Nat)
    (inv : EntryInv B R st) (hbl : 0 < bufLen) (hlt : st.read_bytes < st.size) :
    ∃ t st2, 0 < t ∧ t ≤ B.length - st.read_bytes ∧
      entryReadNone bufLen (st.chunks - st.read_chunks + 1) st =
        some (.ok ((B.drop st.read_bytes).take t, st2)) ∧
      EntryInv B R st2 ∧ st2.read_bytes = st.read_bytes + t ∧ st2.size = st.size ∧
      st2.chunks = st.chunks ∧
      st2.compression_chunk_size = st.compression_chunk_size := by
  by_cases hbe : st.compression_chunk_buffer = []
  · have hrc := entryInv_rc_lt B R st inv hlt hbe
    have hf : st.chunks - st.read_chunks + 1 = (st.chunks - st.read_chunks - 1) + 2 := by
      omega
    rw [hf]
    exact entryReadNone_step B R st bufLen _ inv hbl hlt
  · obtain ⟨t, st2, ht, htle, heq, hinv2, hrb2, hsz2, hch2, _, hcs2⟩ :=
      entryReadNone_drain B R st bufLen (st.chunks - st.read_chunks) inv hbl hlt hbe
    exact ⟨t, st2, ht, htle, heq, hinv2, hrb2, hsz2, hch2, hcs2⟩

/-- Fully consuming an entry from any invariant state yields exactly the
remaining logical payload and leaves the wire at the suffix `R`. -/
theorem consumeEntry_spec (B R : List Nat) (bufLen : Nat) (hbl : 0 < bufLen) :
    ∀ fuel st, EntryInv B R st → B.length - st.read_bytes < fuel →
    ∃ st2, consumeEntry bufLen fuel st = some (.ok (B.drop st.read_bytes, st2)) ∧
      EntryInv B R st2 ∧ st2.reader = R ∧ st2.read_bytes = B.length ∧
      st2.size = st.size ∧ st2.compression_chunk_size = st.compression_chunk_size := by
  intro fuel
  induction fuel with
  | zero =>
    intro st inv h
    omega
  | succ f ih =>
    intro st inv hfuel
    rcases Nat.lt_or_ge st.read_bytes st.size with hlt | hge
    · obtain ⟨t, st2, ht, htle, heq, hinv2, hrb2, hsz2, hch2, hcs2⟩ :=
        entryReadNone_progress B R st bufLen inv hbl hlt
      have hltB : st.read_bytes < B.length := by
        have := inv.size_eq
        omega
      have hbytes_ne : (B.drop st.read_bytes).take t ≠ [] := by
        intro hcon
        have h1 : ((B.drop st.read_bytes).take t).length = 0 := by rw [hcon]; rfl
        rw [List.length_take, List.length_drop] at h1
        omega
      obtain ⟨st3, heq3, hinv3, hwr3, hrb3, hsz3, hcs3⟩ := ih st2 hinv2 (by omega)
      refine ⟨st3, ?_, hinv3, hwr3, hrb3, by omega, by omega⟩
      simp only [consumeEntry, heq]
      rw [if_neg hbytes_ne]
      rw [hrb2] at heq3
      simp only [heq3]
      have hjoin : (B.drop st.read_bytes).take t ++ B.drop (st.read_bytes + t) =
          B.drop st.read_bytes := by
        rw [← List.drop_drop]
        exact List.take_append_drop t (B.drop st.read_bytes)
      rw [hjoin]
    · have hdone : st.size = 0 ∨ st.size ≤ st.read_bytes := Or.inr hge
      obtain ⟨hbuf, hrc, hwire⟩ := entryInv_final B R st inv hge
      have hrbB : st.read_bytes = B.length := by
        have h1 := inv.count_eq
        have h2 := inv.size_eq
        have h3 : min (st.read_chunks * st.compression_chunk_size) B.length ≤ B.length :=
          Nat.min_le_right _ _
        omega
      have hdrop : B.drop st.read_bytes = [] := by
        apply List.drop_eq_nil_of_le
        omega
      refine ⟨st, ?_, inv, hwire, hrbB, rfl, rfl⟩
      have hread : entryReadNone bufLen (st.chunks - st.read_chunks + 1) st =
          some (.ok ([], st)) := entryReadNone_done bufLen _ st hdone
      simp [consumeEntry, hread, hdrop]

/-- `j` successive `read` calls by a caller that then abandons the entry
(the partial-consumption prefix of the abandoned-entry scenario). -/
def consumeSteps (bufLen : Nat) : Nat → EntryState → Option (Except ErrKind EntryState)
  | 0, st => some (.ok st)
  | j + 1, st =>
    match entryReadNone bufLen (st.chunks - st.read_chunks + 1) st with
    | none => none
    | some (.error e) => some (.error e)
    | some (.ok (_, st')) => consumeSteps bufLen j st'

theorem consumeSteps_spec (B R : List Nat) (bufLen : Nat) (hbl : 0 < bufLen) :
    ∀ j st, EntryInv B R st →
    ∃ st2, consumeSteps bufLen j st = some (.ok st2) ∧ EntryInv B R st2 ∧
      st2.size = st.size ∧ st2.compression_chunk_size = st.compression_chunk_size := by
  intro j
  induction j with
  | zero =>
    intro st inv
    exact ⟨st, rfl, inv, rfl, rfl⟩
  | succ k ih =>
    intro st inv
    rcases Nat.lt_or_ge st.read_bytes st.size with hlt | hge
    · obtain ⟨t, st2, _, _, heq, hinv2, _, hsz2, _, hcs2⟩ :=
        entryReadNone_progress B R st bufLen inv hbl hlt
      obtain ⟨st3, heq3, hinv3, hsz3, hcs3⟩ := ih st2 hinv2
      refine ⟨st3, ?_, hinv3, by omega, by rw [hcs3, hcs2]⟩
      simp only [consumeSteps, heq, heq3]
    · have hread := entryReadNone_done bufLen (st.chunks - st.read_chunks) st (Or.inr hge)
      obtain ⟨st3, heq3, hinv3, hsz3, hcs3⟩ := ih st inv
      refine ⟨st3, ?_, hinv3, hsz3, hcs3⟩
      simp only [consumeSteps, hread, heq3]

/-- Disposing an entry from any invariant state succeeds (no panic) and
leaves the underlying reader exactly at the following wire suffix `R`. -/
theorem dropEntry_spec (B R : List Nat) (st : EntryState) (inv : EntryInv B R st) :
    ∃ st2, dropEntry st = some st2 ∧ st2.reader = R := by
  unfold dropEntry
  by_cases h : st.read_bytes < st.size
  · have hsz := inv.size_eq
    obtain ⟨st2, heq, _, hwr, _, _, _⟩ :=
      consumeEntry_spec B R 8192 (by omega) (st.size - st.read_bytes + 1) st inv (by omega)
    rw [if_pos h]
    simp only [heq]
    exact ⟨st2, rfl, hwr⟩
  · rw [if_neg h]
    obtain ⟨_, _, hwire⟩ := entryInv_final B R st inv (by omega)
    exact ⟨st, rfl, hwire⟩

theorem chunkCount_pos (s cs : Nat) (hcs : 0 < cs) :
    chunkCount s cs = some (numChunks s cs) := by
  unfold chunkCount numChunks
  rw [if_neg (by omega)]

/-- `next_entry` on a wire positioned at a serialized entry header. -/
theorem nextEntry_serialized (h : ArchiveEntryHeader) (tail : List Nat) (cs : Nat)
    (wf : WFEntryHeader h) (hcs : 0 < cs) :
    nextEntry cs (serializeEntryHeader h ++ tail) =
      .entry h { reader := tail, compression_chunk_buffer := [], read_bytes := 0, size := h.size, compression_chunk_size := cs, chunks := numChunks h.size cs, read_chunks := 0 } := by
  unfold nextEntry
  simp only [deserializeEntryHeader_serializeEntryHeader h tail wf, chunkCount_pos _ _ hcs]

/-- The state produced by `next_entry` for an entry whose framed chunks are
the writer's output satisfies the invariant. -/
theorem entryInv_initial (B R : List Nat) (cs : Nat) (hcs : 0 < cs)
    (hcs24 : cs ≤ 16777215) :
    EntryInv B R { reader := framesWire cs (numChunks B.length cs) B ++ R, compression_chunk_buffer := [], read_bytes := 0, size := B.length, compression_chunk_size := cs, chunks := numChunks B.length cs, read_chunks := 0 } := by
  exact ⟨hcs, hcs24, rfl, rfl, Nat.zero_le _, by simp, by simp, by simp⟩

/-- Restatement of `entryInv_initial` against the state shape produced by
`nextEntry_serialized`. -/
theorem entryInv_initial_of (B R : List Nat) (cs s : Nat) (hcs : 0 < cs)
    (hcs24 : cs ≤ 16777215) (hs : s = B.length) (w : List Nat)
    (hw : w = framesWire cs (numChunks s cs) B ++ R) :
    EntryInv B R { reader := w, compression_chunk_buffer := [], read_bytes := 0, size := s, compression_chunk_size := cs, chunks := numChunks s cs, read_chunks := 0 } := by
  subst hs
  subst hw
  exact entryInv_initial B R cs hcs hcs24

/-- C1 (helper form): writing one entry through the writer pipeline with
the `"none"` codec and reading it back through the reader pipeline returns
the header and exactly the payload bytes. -/
theorem roundtrip_none (h : ArchiveEntryHeader) (B : List Nat) (cs bufLen : Nat)
    (wf : WFEntryHeader h) (hsz : h.size = B.length) (hcs : 0 < cs)
    (hcs24 : cs ≤ 16777215) (hbl : 0 < bufLen) :
    ∃ wire, writeSingleEntryArchiveNone cs h B = some wire ∧
      readSingleEntryArchiveNone bufLen wire = some (h, B) := by
  have h32 : (16777215 : Nat) < 2 ^ 32 := by norm_num
  have hAHwf : WFArchiveHeader { version := 1, compression := noneName, compression_chunk_size := cs } :=
    ⟨by norm_num, (by decide : noneName.length < 2 ^ 16), by simp only; omega,
      (by decide : utf8Valid noneName = true)⟩
  set n := numChunks h.size cs with hn
  have hc : chunkCount h.size cs = some n := chunkCount_pos _ _ hcs
  refine ⟨serializeArchiveHeader { version := 1, compression := noneName, compression_chunk_size := cs } ++ (serializeEntryHeader h ++ framesWire cs n B), ?_, ?_⟩
  · unfold writeSingleEntryArchiveNone writeEntryNone
    simp only [hc, noneWriteLoop_fst, List.append_assoc]
  · unfold readSingleEntryArchiveNone
    simp only [deserializeArchiveHeader_serializeArchiveHeader _ _ hAHwf]
    simp only [nextEntry_serialized h (framesWire cs n B) cs wf hcs]
    have hinv : EntryInv B [] { reader := framesWire cs n B, compression_chunk_buffer := [], read_bytes := 0, size := h.size, compression_chunk_size := cs, chunks := n, read_chunks := 0 } :=
      entryInv_initial_of B [] cs h.size hcs hcs24 hsz _ (by rw [List.append_nil])
    obtain ⟨st2, heqC, _, _, _, _, _⟩ :=
      consumeEntry_spec B [] bufLen hbl (h.size + 1) _ hinv (by simp only; omega)
    simp only at heqC
    simp only [heqC, List.drop_zero]

/-- C7 (helper form): in a two-entry archive, consuming any number `j` of
`read` calls of the first entry and then dropping it discards the rest of
its framed chunks, leaving the wire exactly at the second entry header,
which then parses correctly. -/
theorem abandoned_entry_aligned (h1 h2 : ArchiveEntryHeader) (B rest : List Nat)
    (cs bufLen j : Nat) (wf1 : WFEntryHeader h1) (wf2 : WFEntryHeader h2)
    (hsz : h1.size = B.length) (hcs : 0 < cs) (hcs24 : cs ≤ 16777215) (hbl : 0 < bufLen) :
    ∃ st1 st1' stb st2,
      nextEntry cs (serializeEntryHeader h1 ++ ((noneWriteLoop cs (numChunks h1.size cs) (numChunks h1.size cs) B).1 ++ (serializeEntryHeader h2 ++ rest))) = .entry h1 st1 ∧
      consumeSteps bufLen j st1 = some (.ok st1') ∧
      dropEntry st1' = some stb ∧
      stb.reader = serializeEntryHeader h2 ++ rest ∧
      nextEntry cs stb.reader = .entry h2 st2 := by
  set R : List Nat := serializeEntryHeader h2 ++ rest with hR
  set tail : List Nat :=
    (noneWriteLoop cs (numChunks h1.size cs) (numChunks h1.size cs) B).1 ++ R with htail
  have hst1 := nextEntry_serialized h1 tail cs wf1 hcs
  set st1 : EntryState := { reader := tail, compression_chunk_buffer := [], read_bytes := 0, size := h1.size, compression_chunk_size := cs, chunks := numChunks h1.size cs, read_chunks := 0 } with hst1def
  have hinv1 : EntryInv B R st1 :=
    entryInv_initial_of B R cs h1.size hcs hcs24 hsz tail
      (by rw [htail, noneWriteLoop_fst])
  obtain ⟨st1', hsteps, hinv1', _, _⟩ := consumeSteps_spec B R bufLen hbl j st1 hinv1
  obtain ⟨stb, hdropEq, hstbr⟩ := dropEntry_spec B R st1' hinv1'
  have hnext2 : nextEntry cs stb.reader = .entry h2 { reader := rest, compression_chunk_buffer := [], read_bytes := 0, size := h2.size, compression_chunk_size := cs, chunks := numChunks h2.size cs, read_chunks := 0 } := by
    rw [hstbr, hR]
    exact nextEntry_serialized h2 rest cs wf2 hcs
  exact ⟨st1, st1', stb, _, hst1, hsteps, hdropEq, by rw [hstbr], hnext2⟩

theorem numChunks_of_rem (cs k r : Nat) (hcs : 0 < cs) (hr : 0 < r) (hrc : r < cs) :
    numChunks (k * cs + r) cs = k + 1 := by
  unfold numChunks
  have hcomm : k * cs + r = r + cs * k := by
    rw [Nat.mul_comm]
    omega
  have h1 : (k * cs + r) / cs = k := by
    rw [hcomm, Nat.add_mul_div_left _ _ hcs, Nat.div_eq_of_lt hrc]
    omega
  have h2 : (k * cs + r) % cs = r := by
    rw [hcomm, Nat.add_mul_mod_self_left, Nat.mod_eq_of_lt hrc]
  rw [h1, h2, if_pos hr]

theorem takeChunks_sizes (cs : Nat) :
    ∀ k r B, 0 < r → r < cs → B.length = k * cs + r →
    (takeChunks cs (k + 1) B).map List.length = List.replicate k cs ++ [r] := by
  intro k
  induction k with
  | zero =>
    intro r B hr hrc hlen
    simp only [Nat.zero_mul, Nat.zero_add] at hlen
    have h1 : B.take cs = B := List.take_of_length_le (by omega)
    simp only [takeChunks, List.map_cons, List.map_nil, h1, hlen,
      List.replicate, List.nil_append]
  | succ m ih =>
    intro r B hr hrc hlen
    rw [Nat.succ_mul] at hlen
    have h1 : (B.take cs).length = cs := by
      rw [List.length_take]
      omega
    have h2 : (B.drop cs).length = m * cs + r := by
      rw [List.length_drop]
      omega
    have hih := ih r (B.drop cs) hr hrc h2
    rw [show takeChunks cs (m + 1 + 1) B = B.take cs :: takeChunks cs (m + 1) (B.drop cs)
      from rfl]
    rw [List.map_cons, h1, hih]
    simp [List.replicate_succ]

/-- Modelled round of the parallel block compressors
(`Flate2Compressor::compress` and its brotli/lz4 twins,
`src/compression.rs`): the driver fills one input buffer per chunk of the
round, then spawns one worker per filled buffer; each worker `i` encodes
`chunkList[i]` and delivers one framed chunk through the shared
`Arc<Mutex<ChunkWriter>>` as soon as it finishes.  Nothing gates a delivery
on the chunk index, so the wire receives the frames in the workers'
completion order `schedule` — an arbitrary permutation of the round's
indices.  Each list element is the chunk index together with the framed
bytes written for it. -/
def parallelRoundEmissions (encode : List Nat → List Nat)
    (chunkList : List (List Nat)) (schedule : List Nat) : List (Nat × List Nat) :=
  schedule.filterMap fun i => (chunkList[i]?).map fun c => (i, frameBytes (encode c))

/-- Modelled `Flate2Decompressor::decompress` (and its twins): each worker
writes into the pre-sized buffer indexed by its chunk position, and after
the join the driver appends the buffers to the output in index order, so
the output is the ordered concatenation of the decoded chunks regardless
of worker completion order. -/
def parallelDecompressOutput (decode : List Nat → List Nat)
    (inputs : List (List Nat)) : List Nat :=
  (inputs.map decode).flatten

/-- Example file entry header (`path = "a"`, `size = 3`) used to
instantiate the general theorems. -/
def exampleFileHeader : ArchiveEntryHeader :=
  { type := .file, path := [97], mode := 420, uid := 1000, gid := 1000, mtime := 1700000000, size := 3 }

/-- Example directory entry header (`path = "d"`, `size = 0`). -/
def exampleDirHeader : ArchiveEntryHeader :=
  { type := .directory, path := [100], mode := 493, uid := 0, gid := 0, mtime := 0, size := 0 }

/-- Example entry header with `size = 1` whose payload is missing from the
wire (the archive is truncated right after the header). -/
def exampleTruncHeader : ArchiveEntryHeader :=
  { type := .file, path := [97], mode := 0, uid := 0, gid := 0, mtime := 0, size := 1 }

/-- The entry state `next_entry` builds for `exampleTruncHeader` on a wire
that ends right after the header. -/
def exampleTruncState : EntryState :=
  { reader := [], compression_chunk_buffer := [], read_bytes := 0, size := 1, compression_chunk_size := 1024, chunks := 1, read_chunks := 0 }

/-- C1: for every byte string `B` and the `"none"` compression codec,
writing one entry with header `size = |B|` and payload source `B` through
the writer pipeline, then reading that entry back through the reader
pipeline and fully consuming its byte stream, yields exactly the bytes
`B` (for any chunk size the writer can frame and any read-buffer size). -/
theorem payload_identity_none (h : ArchiveEntryHeader) (B : List Nat) (cs bufLen : Nat)
    (wf : WFEntryHeader h) (hsz : h.size = B.length) (hcs : 0 < cs)
    (hcs24 : cs ≤ 16777215) (hbl : 0 < bufLen) :
    ∃ wire, writeSingleEntryArchiveNone cs h B = some wire ∧
      readSingleEntryArchiveNone bufLen wire = some (h, B) :=
  roundtrip_none h B cs bufLen wf hsz hcs hcs24 hbl

/-- Witness for C1: payload `"xyz"`, chunk size 1024, 8192-byte reads. -/
theorem payload_identity_none_witness :
    ∃ wire, writeSingleEntryArchiveNone 1024 exampleFileHeader [120, 121, 122] = some wire ∧
      readSingleEntryArchiveNone 8192 wire = some (exampleFileHeader, [120, 121, 122]) :=
  payload_identity_none exampleFileHeader [120, 121, 122] 1024 8192
    (by refine ⟨by decide, by decide, by decide, by decide, by decide, by decide, by decide⟩)
    (by decide) (by decide) (by decide) (by decide)

/-- C2 (code-bug evidence): the ordering contract claims chunk `k` always
precedes chunk `k+1` on the wire during compression.  The parallel
compressors deliver each worker's framed chunk through a shared
`Arc<Mutex<ChunkWriter>>` with no index gating, so frames land in worker
completion order: for a round of two chunks, the legal completion schedule
`[1, 0]` (a permutation of the round's indices) puts chunk 1's framed
bytes on the wire before chunk 0's.  (Decompression, by contrast, drains
the indexed worker buffers in index order — `parallelDecompressOutput` —
so the read side of the contract holds.) -/
theorem parallel_compress_order_violated :
    List.Perm [1, 0] (List.range 2) ∧
    parallelRoundEmissions (fun c => c) [[10], [20]] [1, 0] =
      [(1, frameBytes [20]), (0, frameBytes [10])] ∧
    (parallelRoundEmissions (fun c => c) [[10], [20]] [1, 0]).map Prod.fst ≠ [0, 1] := by
  refine ⟨by decide, by decide, by decide⟩

/-- C3 (code-bug evidence): end-of-file after one consumed entry-header
byte (input `[0x00]`: a valid type byte, then EOF inside the path-length
varint) makes the header parse fail with `UnexpectedEof`, and `next_entry`
maps that to `None` — the normal end of the entry sequence, identical to a
clean EOF at the first byte — instead of reporting a truncation error. -/
theorem midheader_eof_treated_as_end :
    deserializeEntryHeader [0] = .error .unexpectedEof ∧
    nextEntry 1024 [0] = .endOfEntries ∧
    nextEntry 1024 [] = .endOfEntries := by
  refine ⟨by decide, by decide, by decide⟩

/-- C4 (code-bug evidence): `write_entry` passes the compressor the
original total `chunk_count` on every invocation — the trace of
`remaining_chunks` arguments is the constant list `replicate n total`,
never the decremented remaining count.  Concretely, an entry of `size =
2048` with `chunk_size = 1024` calls `compress` twice with
`remaining_chunks = 2` both times, where the claimed contract requires `2`
then `1`. -/
theorem compress_called_with_original_total :
    (∀ cs total n input, (noneWriteLoop cs total n input).2 = List.replicate n total) ∧
    (writeEntryNone 1024 { type := .file, path := [97], mode := 0, uid := 0, gid := 0, mtime := 0, size := 2048 } (List.replicate 2048 55)).map Prod.snd = some [2, 2] ∧
    [2, 2] ≠ [2, 1] := by
  refine ⟨fun cs total n input => noneWriteLoop_trace cs total n input, by decide, by decide⟩

/-- Witness for C4's universally quantified part at a concrete round. -/
theorem compress_called_with_original_total_witness :
    (noneWriteLoop 1024 2 2 (List.replicate 2048 55)).2 = List.replicate 2 2 :=
  compress_called_with_original_total.1 1024 2 2 (List.replicate 2048 55)

/-- C5 counterexample: a header whose version field is 2 (≠ 1) parses
successfully — `ArchiveHeader::deserialize` returns `Ok`, not an error. -/
theorem version_two_header_accepted :
    deserializeArchiveHeader (serializeArchiveHeader { version := 2, compression := noneName, compression_chunk_size := 65536 }) =
      .ok ({ version := 2, compression := noneName, compression_chunk_size := 65536 }, []) := by
  decide

/-- C5 (amended): the header parser performs no version validation — for
every well-formed header value, with any `version` (including values other
than 1), deserializing its serialization succeeds and returns the version
field as parsed. -/
theorem header_parser_ignores_version (h : ArchiveHeader) (rest : List Nat)
    (wf : WFArchiveHeader h) :
    deserializeArchiveHeader (serializeArchiveHeader h ++ rest) = .ok (h, rest) :=
  deserializeArchiveHeader_serializeArchiveHeader h rest wf

/-- Witness for the amended C5 at version 2. -/
theorem header_parser_ignores_version_witness :
    deserializeArchiveHeader (serializeArchiveHeader { version := 2, compression := noneName, compression_chunk_size := 1024 } ++ []) =
      .ok ({ version := 2, compression := noneName, compression_chunk_size := 1024 }, []) :=
  header_parser_ignores_version { version := 2, compression := noneName, compression_chunk_size := 1024 } []
    (by refine ⟨by decide, by decide, by decide, by decide⟩)

/-- C6: for `|B| = k * cs + r` with `0 < r < cs`, the chunk count is
`k + 1`, the writer's payload wire is exactly the frames of the logical
chunking of `B`, and the logical chunk sizes (identical to the framed
payload sizes under the `"none"` codec) are `cs` for the first `k` chunks
and `r` for the last. -/
theorem chunk_boundary_law (B : List Nat) (cs k r : Nat) (hcs : 0 < cs) (hr : 0 < r)
    (hrc : r < cs) (hlen : B.length = k * cs + r) :
    chunkCount B.length cs = some (k + 1) ∧
    (noneWriteLoop cs (k + 1) (k + 1) B).1 =
      ((takeChunks cs (k + 1) B).map frameBytes).flatten ∧
    (takeChunks cs (k + 1) B).length = k + 1 ∧
    (takeChunks cs (k + 1) B).map List.length = List.replicate k cs ++ [r] := by
  refine ⟨?_, ?_, takeChunks_length cs _ B, takeChunks_sizes cs k r B hr hrc hlen⟩
  · rw [hlen, chunkCount_pos _ _ hcs, numChunks_of_rem cs k r hcs hr hrc]
  · exact noneWriteLoop_fst cs (k + 1) (k + 1) B

/-- Witness for C6: a 5-byte payload with chunk size 2 (`k = 2`, `r = 1`). -/
theorem chunk_boundary_law_witness :
    chunkCount 5 2 = some 3 ∧
    (noneWriteLoop 2 3 3 [9, 8, 7, 6, 5]).1 =
      ((takeChunks 2 3 [9, 8, 7, 6, 5]).map frameBytes).flatten ∧
    (takeChunks 2 3 [9, 8, 7, 6, 5]).length = 3 ∧
    (takeChunks 2 3 [9, 8, 7, 6, 5]).map List.length = List.replicate 2 2 ++ [1] :=
  chunk_boundary_law [9, 8, 7, 6, 5] 2 2 1 (by decide) (by decide) (by decide) (by decide)

/-- C7: in a two-entry archive produced by the writer, reading entry 1
with any number `j` of `read` calls (possibly none) and then dropping it
discards the rest of entry 1's framed chunks from the wire, leaving the
reader exactly at entry 2's header, which then parses correctly — no
framing drift. -/
theorem abandoned_entry_no_framing_drift (h1 h2 : ArchiveEntryHeader) (B rest : List Nat)
    (cs bufLen j : Nat) (wf1 : WFEntryHeader h1) (wf2 : WFEntryHeader h2)
    (hsz : h1.size = B.length) (hcs : 0 < cs) (hcs24 : cs ≤ 16777215) (hbl : 0 < bufLen) :
    ∃ st1 st1' stb st2,
      nextEntry cs (serializeEntryHeader h1 ++ ((noneWriteLoop cs (numChunks h1.size cs) (numChunks h1.size cs) B).1 ++ (serializeEntryHeader h2 ++ rest))) = .entry h1 st1 ∧
      consumeSteps bufLen j st1 = some (.ok st1') ∧
      dropEntry st1' = some stb ∧
      stb.reader = serializeEntryHeader h2 ++ rest ∧
      nextEntry cs stb.reader = .entry h2 st2 :=
  abandoned_entry_aligned h1 h2 B rest cs bufLen j wf1 wf2 hsz hcs hcs24 hbl

/-- Witness for C7: file entry `"a"` (3 payload bytes) followed by
directory entry `"d"`, one partial 1-byte read, chunk size 1024. -/
theorem abandoned_entry_no_framing_drift_witness :
    ∃ st1 st1' stb st2,
      nextEntry 1024 (serializeEntryHeader exampleFileHeader ++ ((noneWriteLoop 1024 (numChunks exampleFileHeader.size 1024) (numChunks exampleFileHeader.size 1024) [120, 121, 122]).1 ++ (serializeEntryHeader exampleDirHeader ++ []))) = .entry exampleFileHeader st1 ∧
      consumeSteps 1 1 st1 = some (.ok st1') ∧
      dropEntry st1' = some stb ∧
      stb.reader = serializeEntryHeader exampleDirHeader ++ [] ∧
      nextEntry 1024 stb.reader = .entry exampleDirHeader st2 :=
  abandoned_entry_no_framing_drift exampleFileHeader exampleDirHeader [120, 121, 122] [] 1024 1 1
    (by refine ⟨by decide, by decide, by decide, by decide, by decide, by decide, by decide⟩)
    (by refine ⟨by decide, by decide, by decide, by decide, by decide, by decide, by decide⟩)
    (by decide) (by decide) (by decide) (by decide)

/-- C8: for every `v` in the encodable range of each width,
`decode(encode(v)) = v` from a fresh decoder state; the encoding is
minimal — `n` bytes hold exactly the values below `128 ^ n` and
`(encode v).length` is the least such `n`, so there are no trailing zero
groups; and `0` encodes as the single byte `0x00`. -/
theorem varint_roundtrip_and_minimality :
    (∀ v : Nat, v < 2 ^ 32 → deserializeVarint 32 (serializeVarint v) 0 0 = .ok (v, [])) ∧
    (∀ v : Nat, v < 2 ^ 64 → deserializeVarint 64 (serializeVarint v) 0 0 = .ok (v, [])) ∧
    serializeVarint 0 = [0] ∧
    (∀ v : Nat, v < 128 ^ (serializeVarint v).length ∧
      ((serializeVarint v).length = 1 ∨ 128 ^ ((serializeVarint v).length - 1) ≤ v)) := by
  refine ⟨?_, ?_, serializeVarint_zero, serializeVarint_minimal⟩
  · intro v hv
    have h := varint_roundtrip 32 v [] (by omega) hv
    simpa using h
  · intro v hv
    have h := varint_roundtrip 64 v [] (by omega) hv
    simpa using h

/-- Witness for C8 at `2³² − 1` and `2⁶⁴ − 1`, plus minimality at 16384. -/
theorem varint_roundtrip_and_minimality_witness :
    deserializeVarint 32 (serializeVarint 4294967295) 0 0 = .ok (4294967295, []) ∧
    deserializeVarint 64 (serializeVarint 18446744073709551615) 0 0 =
      .ok (18446744073709551615, []) ∧
    (16384 : Nat) < 128 ^ (serializeVarint 16384).length :=
  ⟨varint_roundtrip_and_minimality.1 4294967295 (by norm_num),
   varint_roundtrip_and_minimality.2.1 18446744073709551615 (by norm_num),
   (varint_roundtrip_and_minimality.2.2.2 16384).1⟩

/-- C9: `ArchiveHeader` deserialization performs no range validation — it
accepts any version and any `compression_chunk_size`, including values
below 1024 and zero — and when `next_entry` then parses an entry header
with `size > 0` while the cached header's chunk size is 0, the chunk-count
expression divides by zero, which panics (`panicked`) instead of
returning an error. -/
theorem header_unvalidated_and_div_zero_panic :
    (∀ (v cs : Nat) (rest : List Nat), v < 2 ^ 32 → cs < 2 ^ 32 →
      deserializeArchiveHeader (serializeArchiveHeader { version := v, compression := noneName, compression_chunk_size := cs } ++ rest) =
        .ok ({ version := v, compression := noneName, compression_chunk_size := cs }, rest)) ∧
    (∀ (h : ArchiveEntryHeader) (input rest : List Nat),
      deserializeEntryHeader input = .ok (h, rest) → 0 < h.size →
      nextEntry 0 input = .panicked) := by
  constructor
  · intro v cs rest hv hcs
    exact deserializeArchiveHeader_serializeArchiveHeader _ rest
      ⟨hv, (by decide : noneName.length < 2 ^ 16), hcs, (by decide : utf8Valid noneName = true)⟩
  · intro h input rest hparse _
    unfold nextEntry
    simp only [hparse]
    rfl

/-- Witness for C9: version 7 with chunk size 0 parses, and `next_entry`
with chunk size 0 on a `size = 1` entry panics. -/
theorem header_unvalidated_and_div_zero_panic_witness :
    deserializeArchiveHeader (serializeArchiveHeader { version := 7, compression := noneName, compression_chunk_size := 0 } ++ []) =
      .ok ({ version := 7, compression := noneName, compression_chunk_size := 0 }, []) ∧
    nextEntry 0 (serializeEntryHeader exampleTruncHeader) = .panicked :=
  ⟨header_unvalidated_and_div_zero_panic.1 7 0 [] (by norm_num) (by norm_num),
   header_unvalidated_and_div_zero_panic.2 exampleTruncHeader _ [] (by decide) (by decide)⟩

/-- C10: dropping an `ArchiveEntry` whose payload was not fully consumed
drains the rest through `read` into a sink and `.unwrap()`s the result; on
an underlying reader that fails during the discard (here: EOF where the
first framed chunk should start), the drain returns an I/O error and the
drop panics (`none`) instead of surfacing it. -/
theorem drop_panics_on_discard_error :
    nextEntry 1024 (serializeEntryHeader exampleTruncHeader) =
      .entry exampleTruncHeader exampleTruncState ∧
    consumeEntry 8192 2 exampleTruncState = some (.error .unexpectedEof) ∧
    dropEntry exampleTruncState = none := by
  refine ⟨by decide, by decide, by decide⟩

end Ataf
